import Mathlib

/-!
Verification of the multi-attendee meeting scheduling engine of this
repository (FindMeetingTimesTool.execute in src/tools/calendar_tools.py).

The embedding models timestamps as minutes since an arbitrary epoch
(natural numbers).  A calendar day is 1440 minutes; the hour component of
a timestamp is (t % 1440) / 60, matching the fixed-offset wall-clock
arithmetic the source performs with datetime plus timedelta.  Per-attendee
merged free/busy strings are lists of characters, one character per
15-minute interval, exactly as the source indexes them
(0 = Free, 1 = Tentative, 2 = Busy, 3 = OutOfOffice, 4 = NoData).
An attendee record whose merged_free_busy attribute is missing or empty is
modelled as the empty list, which the source skips.

The enumeration loop of the source is a while loop whose current time
strictly increases every iteration; it is embedded as a structurally
recursive function on a fuel argument, with fuel rangeEnd - rangeStart + 1,
which is proved sufficient (loop_fuel_congr): any two fuels at least
rangeEnd - current give identical results, so the embedded loop computes
exactly the value of the source loop.
-/

namespace EwsSched

/-- Hour component of a timestamp in minutes: (t % 1440) / 60, the
wall-clock hour used by current_time.hour in the source. -/
def hourOf (t : Nat) : Nat := t % 1440 / 60

/-- Midnight of the calendar day containing t. -/
def dayStart (t : Nat) : Nat := t / 1440 * 1440

/-- current_time.replace(hour=h, minute=0, second=0) of the source. -/
def replHour (t h : Nat) : Nat := dayStart t + 60 * h

/-- (current_time + timedelta(days=1)).replace(hour=h, minute=0, second=0). -/
def nextDayAt (t h : Nat) : Nat := dayStart t + 1440 + 60 * h

/-- interval_index = minutes_from_start // 15 of the source. -/
def intervalIndex (s t : Nat) : Nat := (t - s) / 15

/-- intervals_needed = (duration_minutes + 14) // 15 of the source. -/
def intervalsNeeded (d : Nat) : Nat := (d + 14) / 15

/-- Status character of interval j of a merged free/busy string; positions
beyond the end of the string default to NoData, mirroring the defensive
default of the specification (the source only reads in-bounds positions). -/
def statusAt (fb : List Char) (j : Nat) : Char := fb.getD j '4'

/-- status in ['2', '3'] of the source: Busy or OutOfOffice blocks a slot. -/
def blockedChar (ch : Char) : Bool := ch == '2' || ch == '3'

/-- Per-attendee availability check of the source: an empty (or absent)
merged free/busy string is skipped; a string too short to cover the whole
slot is also skipped (the guard interval_index + intervals_needed <=
len(merged_free_busy) fails and no interval is inspected); otherwise every
interval of the slot must not be Busy or OutOfOffice. -/
def attendeeAvailable (fb : List Char) (idx needed : Nat) : Bool :=
  if fb = [] then true
  else if idx + needed ≤ fb.length then
    (List.range needed).all fun i => ! blockedChar (statusAt fb (idx + i))
  else true

/-- all_available of the source: conjunction of the per-attendee checks. -/
def slotAvailable (fbs : List (List Char)) (idx needed : Nat) : Bool :=
  fbs.all fun fb => attendeeAvailable fb idx needed

/-- Scheduling preferences with the field names of the source request.
min_break_minutes is carried but, like in the source, never influences the
result (the buffer times computed from it are discarded). -/
structure Prefs where
  prefer_morning : Bool
  prefer_afternoon : Bool
  avoid_back_to_back : Bool
  working_hours_only : Bool
  min_break_minutes : Nat
  earliest_hour : Nat
  latest_hour : Nat
deriving Repr, DecidableEq

/-- A find_meeting_times request after argument extraction and ISO-8601
parsing: timestamps are minutes since the epoch. -/
structure Req where
  attendees : List String
  duration_minutes : Nat
  date_range_start : Nat
  date_range_end : Nat
  max_suggestions : Nat
  prefs : Prefs
deriving Repr, DecidableEq

/-- One suggestion dictionary of the source.  day_of_week is the day index
modulo 7 (the strftime weekday name is a presentation of this value);
time_of_day is the bucket string computed by the source. -/
structure Candidate where
  start_time : Nat
  end_time : Nat
  duration_minutes : Nat
  score : Int
  day_of_week : Nat
  time_of_day : String
deriving Repr, DecidableEq

/-- The loop context: range, duration, cap, preferences and the decoded
per-attendee merged free/busy strings (in attendee order). -/
structure Ctx where
  S : Nat
  E : Nat
  d : Nat
  maxS : Nat
  p : Prefs
  fbs : List (List Char)
deriving Repr, DecidableEq

/-- Result of running the enumeration loop: the accepted candidates in
emission order, and the number of executed loop-body iterations. -/
structure LoopOut where
  cands : List Candidate
  iters : Nat
deriving Repr, DecidableEq

/-- Score of an accepted slot starting at t, literally the source:
base 100; +20 if prefer_morning and hour < 12; +20 if prefer_afternoon and
hour >= 13; -10 if hour < 9 or hour > 16; +10 if avoid_back_to_back
(unconditionally). -/
def scoreOf (p : Prefs) (t : Nat) : Int :=
  let s0 : Int := 100
  let s1 : Int := if p.prefer_morning = true ∧ hourOf t < 12 then s0 + 20 else s0
  let s2 : Int := if p.prefer_afternoon = true ∧ 13 ≤ hourOf t then s1 + 20 else s1
  let s3 : Int := if hourOf t < 9 ∨ 16 < hourOf t then s2 - 10 else s2
  if p.avoid_back_to_back = true then s3 + 10 else s3

/-- The suggestion record the source appends for a slot starting at t. -/
def mkCand (ctx : Ctx) (t : Nat) : Candidate :=
  { start_time := t
    end_time := t + ctx.d
    duration_minutes := ctx.d
    score := scoreOf ctx.p t
    day_of_week := t / 1440 % 7
    time_of_day :=
      if hourOf t < 12 then "Morning"
      else if hourOf t < 17 then "Afternoon" else "Evening" }

/-- What the loop body does after the working-hours pre-adjustment:
break (slot end past the range end), jump to the next day (slot end hour
past latest_hour), emit the candidate, or skip it. -/
inductive Action where
  | stop : Action
  | jumpDay : Action
  | stepEmit : Action
  | stepSkip : Action
deriving Repr, DecidableEq

/-- The slot checks of the loop body, in source order, at adjusted time t. -/
def bodyAction (ctx : Ctx) (t : Nat) : Action :=
  if ctx.E < t + ctx.d then Action.stop
  else if ctx.p.working_hours_only = true ∧ ctx.p.latest_hour < hourOf (t + ctx.d) then
    Action.jumpDay
  else if slotAvailable ctx.fbs (intervalIndex ctx.S t) (intervalsNeeded ctx.d) = true then
    Action.stepEmit
  else Action.stepSkip

/-- The first working-hours branch of the loop body: if the current hour is
before earliest_hour, move to earliest_hour:00 of the same day (and fall
through); otherwise keep the current time. -/
def adjustEarly (ctx : Ctx) (t : Nat) : Nat :=
  if ctx.p.working_hours_only = true ∧ hourOf t < ctx.p.earliest_hour then
    replHour t ctx.p.earliest_hour
  else t

/-- The elif working-hours branch: hour not before earliest_hour and at or
past latest_hour, so the iteration jumps to the next day and continues. -/
def lateJump (ctx : Ctx) (t : Nat) : Prop :=
  ctx.p.working_hours_only = true ∧ ¬ hourOf t < ctx.p.earliest_hour ∧
    ctx.p.latest_hour ≤ hourOf t

instance (ctx : Ctx) (t : Nat) : Decidable (lateJump ctx t) := by
  unfold lateJump; infer_instance

/-- Count one executed iteration. -/
def tally (r : LoopOut) : LoopOut := ⟨r.cands, r.iters + 1⟩

/-- The while loop of the source, one fuel unit per executed iteration.
The loop runs while current < E and count < maxS; each iteration either
breaks or strictly advances the current time, so any fuel of at least
E - current suffices (loop_fuel_congr below). -/
def loop (ctx : Ctx) : Nat → Nat → Nat → LoopOut
  | 0, _, _ => ⟨[], 0⟩
  | fuel + 1, t, count =>
    if t < ctx.E ∧ count < ctx.maxS then
      if lateJump ctx t then
        tally (loop ctx fuel (nextDayAt t ctx.p.earliest_hour) count)
      else
        match bodyAction ctx (adjustEarly ctx t) with
        | Action.stop => ⟨[], 1⟩
        | Action.jumpDay =>
            tally (loop ctx fuel (nextDayAt (adjustEarly ctx t) ctx.p.earliest_hour) count)
        | Action.stepEmit =>
            ⟨mkCand ctx (adjustEarly ctx t) ::
               (loop ctx fuel (adjustEarly ctx t + 15) (count + 1)).cands,
             (loop ctx fuel (adjustEarly ctx t + 15) (count + 1)).iters + 1⟩
        | Action.stepSkip =>
            tally (loop ctx fuel (adjustEarly ctx t + 15) count)
    else ⟨[], 0⟩

/-- The loop as run by find_meeting_times, with provably sufficient fuel. -/
def runLoop (ctx : Ctx) : LoopOut := loop ctx (ctx.E - ctx.S + 1) ctx.S 0

/-- Number of 15-minute ticks between the range bounds (ceiling). -/
def ticksBetween (s e : Nat) : Nat := (e - s + 14) / 15

/-- Stable descending insertion by score: x is placed before the first
earlier-emitted candidate with a strictly smaller score, so equal scores
keep their emission order, exactly like the stable reverse=True sort of
the source. -/
def insertD (x : Candidate) : List Candidate → List Candidate
  | [] => [x]
  | y :: ys => if y.score < x.score then x :: y :: ys else y :: insertD x ys

/-- suggestions.sort(key=lambda x: x['score'], reverse=True) of the source:
a stable sort by score descending. -/
def sortD (l : List Candidate) : List Candidate :=
  l.foldl (fun acc x => insertD x acc) []

/-- The context find_meeting_times builds from a request and the decoded
per-attendee merged free/busy strings. -/
def ctxOf (req : Req) (fbs : List (List Char)) : Ctx :=
  { S := req.date_range_start
    E := req.date_range_end
    d := req.duration_minutes
    maxS := req.max_suggestions
    p := req.prefs
    fbs := fbs }

/-- FindMeetingTimesTool.execute after argument extraction and date
parsing: validation of the attendee list and of the date-range order,
then the enumeration loop, the stable sort by score descending, and the
truncation to max_suggestions.  The source performs no validation of
duration_minutes.  Errors are the ToolExecutionError messages of the
source; the ok value is the suggestions list of the success response. -/
def findMeetingTimes (req : Req) (fbs : List (List Char)) :
    Except String (List Candidate) :=
  if req.attendees = [] then Except.error "attendees list is required"
  else if req.date_range_end ≤ req.date_range_start then
    Except.error "date_range_end must be after date_range_start"
  else
    Except.ok ((sortD (runLoop (ctxOf req fbs)).cands).take req.max_suggestions)

/-! ## Arithmetic facts about the time helpers -/

theorem lt_nextDayAt (t h : Nat) : t < nextDayAt t h := by
  unfold nextDayAt dayStart; omega

theorem le_adjustEarly (ctx : Ctx) (t : Nat) : t ≤ adjustEarly ctx t := by
  unfold adjustEarly replHour dayStart hourOf
  split
  · next h => omega
  · exact Nat.le_refl t

theorem hour_replHour (t h : Nat) : hourOf (replHour t h) = h % 24 := by
  unfold hourOf replHour dayStart; omega

theorem adjustEarly_hour (ctx : Ctx) (t : Nat) (hw : ctx.p.working_hours_only = true)
    (hnj : ¬ lateJump ctx t) :
    hourOf (adjustEarly ctx t) = ctx.p.earliest_hour % 24 ∨
      (ctx.p.earliest_hour ≤ hourOf (adjustEarly ctx t) ∧
        hourOf (adjustEarly ctx t) < ctx.p.latest_hour) := by
  unfold adjustEarly
  split
  · next h => exact Or.inl (hour_replHour t ctx.p.earliest_hour)
  · next h =>
    right
    have h1 : ¬ hourOf t < ctx.p.earliest_hour := fun hh => h ⟨hw, hh⟩
    have h2 : ¬ ctx.p.latest_hour ≤ hourOf t := fun hh => hnj ⟨hw, h1, hh⟩
    omega

/-! ## What the loop body guarantees about an emitted candidate -/

/-- The conditions under which the source appends a suggestion for a slot
starting at u: the slot fits in the range, every attendee passes the
availability check, and with working hours on, u sits at the adjusted
earliest hour or inside the working window, and the slot-end hour does not
exceed latest_hour. -/
def emitted (ctx : Ctx) (u : Nat) : Prop :=
  u + ctx.d ≤ ctx.E ∧
  slotAvailable ctx.fbs (intervalIndex ctx.S u) (intervalsNeeded ctx.d) = true ∧
  (ctx.p.working_hours_only = true →
    (hourOf u = ctx.p.earliest_hour % 24 ∨ ctx.p.earliest_hour ≤ hourOf u) ∧
    hourOf (u + ctx.d) ≤ ctx.p.latest_hour)

theorem bodyAction_emit (ctx : Ctx) (t : Nat) (h : bodyAction ctx t = Action.stepEmit) :
    t + ctx.d ≤ ctx.E ∧
    (ctx.p.working_hours_only = true → hourOf (t + ctx.d) ≤ ctx.p.latest_hour) ∧
    slotAvailable ctx.fbs (intervalIndex ctx.S t) (intervalsNeeded ctx.d) = true := by
  unfold bodyAction at h
  split_ifs at h with h1 h2 h3
  refine ⟨by omega, fun hw => ?_, h3⟩
  have : ¬ ctx.p.latest_hour < hourOf (t + ctx.d) := fun hh => h2 ⟨hw, hh⟩
  omega

theorem loop_mem (ctx : Ctx) (fuel : Nat) :
    ∀ t count c, c ∈ (loop ctx fuel t count).cands →
      ∃ u, t ≤ u ∧ c = mkCand ctx u ∧ emitted ctx u := by
  induction fuel with
  | zero => intro t count c hc; simp [loop] at hc
  | succ fuel ih =>
    intro t count c hc
    simp only [loop] at hc
    split at hc
    · split at hc
      · simp only [tally] at hc
        obtain ⟨u, hu1, hu2⟩ := ih _ _ _ hc
        exact ⟨u, Nat.le_trans (Nat.le_of_lt (lt_nextDayAt t _)) hu1, hu2⟩
      · next hj =>
        split at hc
        · simp at hc
        · simp only [tally] at hc
          obtain ⟨u, hu1, hu2⟩ := ih _ _ _ hc
          have ha := le_adjustEarly ctx t
          have hb := lt_nextDayAt (adjustEarly ctx t) ctx.p.earliest_hour
          exact ⟨u, by omega, hu2⟩
        · next heq =>
          rcases List.mem_cons.mp hc with hceq | hcr
          · refine ⟨adjustEarly ctx t, le_adjustEarly ctx t, hceq, ?_⟩
            obtain ⟨he1, he2, he3⟩ := bodyAction_emit ctx _ heq
            refine ⟨he1, he3, fun hw => ⟨?_, he2 hw⟩⟩
            rcases adjustEarly_hour ctx t hw hj with hh | hh
            · exact Or.inl hh
            · exact Or.inr hh.1
          · obtain ⟨u, hu1, hu2⟩ := ih _ _ _ hcr
            have ha := le_adjustEarly ctx t
            exact ⟨u, by omega, hu2⟩
        · simp only [tally] at hc
          obtain ⟨u, hu1, hu2⟩ := ih _ _ _ hc
          have ha := le_adjustEarly ctx t
          exact ⟨u, by omega, hu2⟩
    · simp at hc

/-! ## The stable descending sort -/

/-- The ranking order of the output list: scores descend, and between equal
scores the earlier start time comes first. -/
def rankRel (a b : Candidate) : Prop :=
  b.score ≤ a.score ∧ (a.score = b.score → a.start_time < b.start_time)

theorem mem_insertD (a x : Candidate) (l : List Candidate) :
    a ∈ insertD x l ↔ a = x ∨ a ∈ l := by
  induction l with
  | nil => simp [insertD]
  | cons y ys ih =>
    unfold insertD
    split
    · simp [List.mem_cons]
    · simp only [List.mem_cons, ih]
      tauto

theorem mem_sortD_aux (l : List Candidate) :
    ∀ acc a, (a ∈ l.foldl (fun acc x => insertD x acc) acc ↔ a ∈ acc ∨ a ∈ l) := by
  induction l with
  | nil => simp
  | cons x xs ih =>
    intro acc a
    simp only [List.foldl_cons, ih, mem_insertD, List.mem_cons]
    tauto

theorem mem_sortD (a : Candidate) (l : List Candidate) : a ∈ sortD l ↔ a ∈ l := by
  unfold sortD
  rw [mem_sortD_aux]
  simp

theorem insertD_pairwise (x : Candidate) (l : List Candidate)
    (hl : l.Pairwise rankRel) (hx : ∀ y ∈ l, y.start_time < x.start_time) :
    (insertD x l).Pairwise rankRel := by
  induction l with
  | nil => simp [insertD, rankRel]
  | cons y ys ih =>
    rcases List.pairwise_cons.mp hl with ⟨hy, hys⟩
    unfold insertD
    split
    · next hlt =>
      refine List.Pairwise.cons ?_ hl
      intro z hz
      rcases List.mem_cons.mp hz with rfl | hz1
      · exact ⟨Int.le_of_lt hlt, fun he => absurd he (by omega)⟩
      · have h1 := (hy z hz1).1
        exact ⟨by omega, fun he => absurd he (by omega)⟩
    · next hge =>
      refine List.Pairwise.cons ?_ (ih hys fun z hz => hx z (List.mem_cons_of_mem y hz))
      intro z hz
      rcases (mem_insertD z x ys).mp hz with rfl | hz1
      · exact ⟨by omega, fun _ => hx y (List.mem_cons_self y ys)⟩
      · exact hy z hz1

theorem sortD_aux_pairwise (l : List Candidate) :
    ∀ acc, acc.Pairwise rankRel →
      (∀ y ∈ acc, ∀ x ∈ l, y.start_time < x.start_time) →
      l.Pairwise (fun a b => a.start_time < b.start_time) →
      (l.foldl (fun acc x => insertD x acc) acc).Pairwise rankRel := by
  induction l with
  | nil => intro acc h _ _; simpa using h
  | cons x xs ih =>
    intro acc hacc hcross hl
    rcases List.pairwise_cons.mp hl with ⟨hx, hxs⟩
    simp only [List.foldl_cons]
    apply ih
    · exact insertD_pairwise x acc hacc fun y hy => hcross y hy x (List.mem_cons_self x xs)
    · intro y hy z hz
      rcases (mem_insertD y x acc).mp hy with rfl | hy1
      · exact hx z hz
      · exact hcross y hy1 z (List.mem_cons_of_mem x hz)
    · exact hxs

theorem sortD_pairwise (l : List Candidate)
    (hl : l.Pairwise fun a b => a.start_time < b.start_time) :
    (sortD l).Pairwise rankRel :=
  sortD_aux_pairwise l [] List.Pairwise.nil (by simp) hl

/-! ## Order and provenance of the emitted candidates -/

theorem loop_start_le (ctx : Ctx) (fuel t count : Nat) (c : Candidate)
    (hc : c ∈ (loop ctx fuel t count).cands) : t ≤ c.start_time := by
  obtain ⟨u, hu, rfl, -⟩ := loop_mem ctx fuel t count c hc
  exact hu

theorem loop_pairwise (ctx : Ctx) (fuel : Nat) :
    ∀ t count, (loop ctx fuel t count).cands.Pairwise
      fun a b => a.start_time < b.start_time := by
  induction fuel with
  | zero => intro t count; simp [loop]
  | succ fuel ih =>
    intro t count
    simp only [loop]
    split
    · split
      · simp only [tally]; exact ih _ _
      · split
        · simp
        · simp only [tally]; exact ih _ _
        · refine List.Pairwise.cons ?_ (ih _ _)
          intro c hc
          have h1 := loop_start_le ctx fuel _ _ c hc
          have h2 : (mkCand ctx (adjustEarly ctx t)).start_time = adjustEarly ctx t := rfl
          omega
        · simp only [tally]; exact ih _ _
    · simp

theorem result_eq (req : Req) (fbs : List (List Char)) (out : List Candidate)
    (hok : findMeetingTimes req fbs = Except.ok out) :
    out = (sortD (runLoop (ctxOf req fbs)).cands).take req.max_suggestions := by
  unfold findMeetingTimes at hok
  split at hok
  · exact absurd hok (by simp)
  · split at hok
    · exact absurd hok (by simp)
    · injection hok with h
      exact h.symm

theorem result_mem (req : Req) (fbs : List (List Char)) (out : List Candidate)
    (c : Candidate) (hok : findMeetingTimes req fbs = Except.ok out) (hc : c ∈ out) :
    ∃ u, req.date_range_start ≤ u ∧ c = mkCand (ctxOf req fbs) u ∧
      emitted (ctxOf req fbs) u := by
  rw [result_eq req fbs out hok] at hc
  have hc1 : c ∈ sortD (runLoop (ctxOf req fbs)).cands :=
    ((List.take_sublist _ _).subset) hc
  have hc2 := (mem_sortD c _).mp hc1
  exact loop_mem _ _ _ _ _ hc2

/-! ## Availability facts -/

theorem attendeeAvailable_spec (fb : List Char) (idx needed i : Nat)
    (h : attendeeAvailable fb idx needed = true) (hne : fb ≠ [])
    (hcov : idx + needed ≤ fb.length) (hi : i < needed) :
    blockedChar (statusAt fb (idx + i)) = false := by
  unfold attendeeAvailable at h
  rw [if_neg hne, if_pos hcov] at h
  have h2 := List.all_eq_true.mp h i (List.mem_range.mpr hi)
  simpa using h2

/-! ## Claim C1 -/

/-- The property asserted by claim C1 about a result list: for every
returned candidate, every attendee and every 15-minute interval the
candidate spans, the attendee's status is Free or NoData (positions past
the end of a string read as NoData). -/
def allCoveredFreeOrNoData (req : Req) (fbs : List (List Char))
    (out : List Candidate) : Prop :=
  ∀ c ∈ out, ∀ fb ∈ fbs, ∀ i < intervalsNeeded req.duration_minutes,
    statusAt fb (intervalIndex req.date_range_start c.start_time + i) = '0' ∨
    statusAt fb (intervalIndex req.date_range_start c.start_time + i) = '4'

instance (req : Req) (fbs : List (List Char)) (out : List Candidate) :
    Decidable (allCoveredFreeOrNoData req fbs out) := by
  unfold allCoveredFreeOrNoData
  infer_instance

/-- C1 as stated is false: on the range 09:00-10:00 with a 30-minute
meeting, one attendee Tentative (1) everywhere and one attendee whose
string is the single Busy character 2, the slot 09:00-09:30 is returned,
although it spans intervals that are Tentative for the first attendee and
Busy for the second (whose one-character string is too short to be
checked). -/
theorem c1_counterexample :
    ∃ out,
      findMeetingTimes
          ⟨["a", "b"], 30, 540, 600, 1, ⟨false, false, true, true, 15, 9, 17⟩⟩
          [['1', '1', '1', '1'], ['2']] = Except.ok out ∧
        ¬ allCoveredFreeOrNoData
          ⟨["a", "b"], 30, 540, 600, 1, ⟨false, false, true, true, 15, 9, 17⟩⟩
          [['1', '1', '1', '1'], ['2']] out :=
  ⟨_, rfl, by decide⟩

/-- C1 amended: for every returned candidate and every attendee whose
merged free/busy string covers the whole slot, no spanned interval is
Busy (2) or OutOfOffice (3); Free, Tentative and NoData all count as
available, and an attendee whose string is too short to cover the slot is
not checked at all. -/
theorem c1_amended (req : Req) (fbs : List (List Char)) (out : List Candidate)
    (hok : findMeetingTimes req fbs = Except.ok out)
    (c : Candidate) (hc : c ∈ out) (fb : List Char) (hfb : fb ∈ fbs)
    (hcover : intervalIndex req.date_range_start c.start_time +
        intervalsNeeded req.duration_minutes ≤ fb.length)
    (i : Nat) (hi : i < intervalsNeeded req.duration_minutes) :
    ¬ (statusAt fb (intervalIndex req.date_range_start c.start_time + i) = '2' ∨
       statusAt fb (intervalIndex req.date_range_start c.start_time + i) = '3') := by
  obtain ⟨u, -, rfl, hem⟩ := result_mem req fbs out c hok hc
  obtain ⟨-, hav, -⟩ := hem
  have hst : (mkCand (ctxOf req fbs) u).start_time = u := rfl
  rw [hst] at hcover ⊢
  by_cases hne : fb = []
  · subst hne
    simp at hcover
    omega
  · have hfb2 : attendeeAvailable fb (intervalIndex req.date_range_start u)
        (intervalsNeeded req.duration_minutes) = true := by
      have h2 := List.all_eq_true.mp hav fb hfb
      simpa using h2
    have hb := attendeeAvailable_spec fb _ _ i hfb2 hne hcover hi
    intro hor
    rcases hor with h2 | h3
    · rw [h2] at hb
      simp [blockedChar] at hb
    · rw [h3] at hb
      simp [blockedChar] at hb

/-- Witness for the amended C1 at a concrete run: single attendee, all
Free, 09:00-11:00 range, one accepted slot at 09:00. -/
theorem c1_amended_witness :
    ¬ (statusAt ['0', '0', '0', '0', '0', '0', '0', '0'] (intervalIndex 540 540 + 0) = '2' ∨
       statusAt ['0', '0', '0', '0', '0', '0', '0', '0'] (intervalIndex 540 540 + 0) = '3') :=
  c1_amended ⟨["a"], 60, 540, 660, 1, ⟨false, false, true, true, 15, 9, 17⟩⟩
    [['0', '0', '0', '0', '0', '0', '0', '0']]
    [⟨540, 600, 60, 110, 0, "Morning"⟩] rfl
    ⟨540, 600, 60, 110, 0, "Morning"⟩ (by decide)
    ['0', '0', '0', '0', '0', '0', '0', '0'] (by decide) (by decide) 0 (by decide)

/-! ## Claim C2 -/

/-- The source performs no validation of duration_minutes: with
duration_minutes = 5 (outside [15, 480]) and otherwise valid fields it
returns a success result containing 5-minute suggestions instead of
raising a validation error, contradicting its own schema and test suite. -/
theorem c2_no_duration_validation :
    ∃ out,
      findMeetingTimes
          ⟨["a"], 5, 540, 600, 5, ⟨false, false, true, true, 15, 9, 17⟩⟩
          [['0', '0', '0', '0']] = Except.ok out ∧
        out ≠ [] ∧ ∀ c ∈ out, c.duration_minutes = 5 :=
  ⟨_, rfl, by decide, by decide⟩

/-! ## Claim C3 -/

/-- C3: with working_hours_only on (and a schema-valid earliest_hour of at
most 23), every returned candidate starts at an hour at least
earliest_hour and ends at an hour at most latest_hour, where hour is the
wall-clock hour component. -/
theorem c3_working_hours (req : Req) (fbs : List (List Char)) (out : List Candidate)
    (hok : findMeetingTimes req fbs = Except.ok out)
    (hwho : req.prefs.working_hours_only = true)
    (he : req.prefs.earliest_hour ≤ 23)
    (c : Candidate) (hc : c ∈ out) :
    req.prefs.earliest_hour ≤ hourOf c.start_time ∧
      hourOf (c.start_time + req.duration_minutes) ≤ req.prefs.latest_hour := by
  obtain ⟨u, -, rfl, hem⟩ := result_mem req fbs out c hok hc
  obtain ⟨-, -, hwh⟩ := hem
  obtain ⟨hh1, hh2⟩ := hwh hwho
  dsimp only [ctxOf] at hh1 hh2
  have hst : (mkCand (ctxOf req fbs) u).start_time = u := rfl
  rw [hst]
  refine ⟨?_, hh2⟩
  rcases hh1 with h | h
  · omega
  · exact h

/-- Witness for C3 at a concrete accepted slot 09:00-10:00. -/
theorem c3_witness : 9 ≤ hourOf 540 ∧ hourOf (540 + 60) ≤ 17 :=
  c3_working_hours ⟨["a"], 60, 540, 660, 1, ⟨false, false, true, true, 15, 9, 17⟩⟩
    [['0', '0', '0', '0', '0', '0', '0', '0']]
    [⟨540, 600, 60, 110, 0, "Morning"⟩] rfl rfl (by decide)
    ⟨540, 600, 60, 110, 0, "Morning"⟩ (by decide)

/-! ## Claim C4 -/

/-- The property asserted by claim C4: every returned slot fits fully
within [earliestHour:00, latestHour:00] of the start's calendar day. -/
def fitsWorkingDay (req : Req) (out : List Candidate) : Prop :=
  ∀ c ∈ out,
    60 * req.prefs.earliest_hour ≤ c.start_time % 1440 ∧
    c.end_time ≤ c.start_time / 1440 * 1440 + 60 * req.prefs.latest_hour

instance (req : Req) (out : List Candidate) : Decidable (fitsWorkingDay req out) := by
  unfold fitsWorkingDay
  infer_instance

/-- C4 as stated is false: on the range 16:45-18:00 with a 30-minute
meeting and working hours 9-17, the slot 16:45-17:15 is returned; its end
lies 15 minutes after 17:00, because the source only compares the hour
component of the slot end with latest_hour. -/
theorem c4_counterexample :
    ∃ out,
      findMeetingTimes
          ⟨["a"], 30, 1005, 1080, 5, ⟨false, false, true, true, 15, 9, 17⟩⟩
          [['0', '0', '0', '0', '0']] = Except.ok out ∧
        ¬ fitsWorkingDay
          ⟨["a"], 30, 1005, 1080, 5, ⟨false, false, true, true, 15, 9, 17⟩⟩ out :=
  ⟨_, rfl, by decide⟩

/-- C4 amended: with working_hours_only on, every returned slot starts at
or after earliestHour:00 of its calendar day, and the hour component of
the slot end is at most latestHour — the slot may therefore end up to 59
minutes past latestHour:00, or on a later day for long durations. -/
theorem c4_amended (req : Req) (fbs : List (List Char)) (out : List Candidate)
    (hok : findMeetingTimes req fbs = Except.ok out)
    (hwho : req.prefs.working_hours_only = true)
    (he : req.prefs.earliest_hour ≤ 23)
    (c : Candidate) (hc : c ∈ out) :
    60 * req.prefs.earliest_hour ≤ c.start_time % 1440 ∧
      hourOf c.end_time ≤ req.prefs.latest_hour := by
  obtain ⟨u, -, rfl, hem⟩ := result_mem req fbs out c hok hc
  obtain ⟨-, -, hwh⟩ := hem
  obtain ⟨hh1, hh2⟩ := hwh hwho
  dsimp only [ctxOf] at hh1 hh2
  have hst : (mkCand (ctxOf req fbs) u).start_time = u := rfl
  have hen : (mkCand (ctxOf req fbs) u).end_time = u + req.duration_minutes := rfl
  rw [hst, hen]
  constructor
  · have : req.prefs.earliest_hour ≤ hourOf u := by
      rcases hh1 with h | h
      · omega
      · exact h
    unfold hourOf at this
    omega
  · exact hh2

/-- Witness for the amended C4 at the 16:45-17:15 slot: it starts after
09:00 of its day and its end hour 17 is within the bound, even though the
end time itself is past 17:00. -/
theorem c4_amended_witness :
    60 * 9 ≤ 1005 % 1440 ∧ hourOf 1035 ≤ 17 :=
  c4_amended ⟨["a"], 30, 1005, 1080, 5, ⟨false, false, true, true, 15, 9, 17⟩⟩
    [['0', '0', '0', '0', '0']]
    [⟨1005, 1035, 30, 110, 0, "Afternoon"⟩] rfl rfl (by decide)
    ⟨1005, 1035, 30, 110, 0, "Afternoon"⟩ (by decide)

/-! ## Claim C5 -/

/-- C5: the result list is sorted by score descending, equal scores are
ordered by earliest start first (the emission order is chronological and
the sort is stable), and its length is at most max_suggestions. -/
theorem c5_ranking (req : Req) (fbs : List (List Char)) (out : List Candidate)
    (hok : findMeetingTimes req fbs = Except.ok out) :
    out.Pairwise rankRel ∧ out.length ≤ req.max_suggestions := by
  rw [result_eq req fbs out hok]
  constructor
  · exact (sortD_pairwise _ (loop_pairwise _ _ _ _)).sublist (List.take_sublist _ _)
  · exact List.length_take_le _ _

/-- Witness for C5: two equally scored morning slots are returned in start
order, and the list respects the cap of 2. -/
theorem c5_witness :
    ([⟨540, 600, 60, 130, 0, "Morning"⟩, ⟨555, 615, 60, 130, 0, "Morning"⟩] :
        List Candidate).Pairwise rankRel ∧
      ([⟨540, 600, 60, 130, 0, "Morning"⟩, ⟨555, 615, 60, 130, 0, "Morning"⟩] :
        List Candidate).length ≤ 2 :=
  c5_ranking ⟨["a"], 60, 540, 900, 2, ⟨true, false, true, true, 15, 9, 17⟩⟩
    [List.replicate 24 '0']
    [⟨540, 600, 60, 130, 0, "Morning"⟩, ⟨555, 615, 60, 130, 0, "Morning"⟩] rfl

/-! ## Claim C6 -/

/-- C6: the score of every returned candidate is exactly 100, plus 20 for
prefer_morning before 12, plus 20 for prefer_afternoon from 13, minus 10
before 9 or after 16, plus 10 whenever avoid_back_to_back is set — the
latter unconditionally, with no inspection of neighbouring intervals or of
min_break_minutes. -/
theorem c6_score (req : Req) (fbs : List (List Char)) (out : List Candidate)
    (hok : findMeetingTimes req fbs = Except.ok out)
    (c : Candidate) (hc : c ∈ out) :
    c.score =
      100 + (if req.prefs.prefer_morning = true ∧ hourOf c.start_time < 12 then 20 else 0)
        + (if req.prefs.prefer_afternoon = true ∧ 13 ≤ hourOf c.start_time then 20 else 0)
        - (if hourOf c.start_time < 9 ∨ 16 < hourOf c.start_time then 10 else 0)
        + (if req.prefs.avoid_back_to_back = true then 10 else 0) := by
  obtain ⟨u, -, rfl, -⟩ := result_mem req fbs out c hok hc
  have hs : (mkCand (ctxOf req fbs) u).score = scoreOf req.prefs u := rfl
  have hst : (mkCand (ctxOf req fbs) u).start_time = u := rfl
  rw [hs, hst]
  simp only [scoreOf]
  split_ifs <;> omega

/-- Witness for C6 at a concrete accepted slot with the default
preferences: 100 + 0 + 0 - 0 + 10. -/
theorem c6_witness :
    (⟨540, 600, 60, 110, 0, "Morning"⟩ : Candidate).score =
      100 + (if false = true ∧ hourOf 540 < 12 then 20 else 0)
        + (if false = true ∧ 13 ≤ hourOf 540 then 20 else 0)
        - (if hourOf 540 < 9 ∨ 16 < hourOf 540 then 10 else 0)
        + (if true = true then 10 else 0) :=
  c6_score ⟨["a"], 60, 540, 660, 1, ⟨false, false, true, true, 15, 9, 17⟩⟩
    [['0', '0', '0', '0', '0', '0', '0', '0']]
    [⟨540, 600, 60, 110, 0, "Morning"⟩] rfl
    ⟨540, 600, 60, 110, 0, "Morning"⟩ (by decide)

/-! ## Claim C9 -/

/-- C9: the engine is deterministic — it is a pure function of exactly the
request fields and the decoded per-attendee merged free/busy strings, so
identical inputs yield identical ordered result lists. -/
theorem c9_deterministic (r1 r2 : Req) (f1 f2 : List (List Char))
    (hr : r1 = r2) (hf : f1 = f2) :
    findMeetingTimes r1 f1 = findMeetingTimes r2 f2 := by
  subst hr
  subst hf
  rfl

/-- Witness for C9 at a concrete request. -/
theorem c9_witness :
    findMeetingTimes ⟨["a"], 60, 540, 660, 1, ⟨false, false, true, true, 15, 9, 17⟩⟩
        [['0', '0', '0', '0', '0', '0', '0', '0']] =
      findMeetingTimes ⟨["a"], 60, 540, 660, 1, ⟨false, false, true, true, 15, 9, 17⟩⟩
        [['0', '0', '0', '0', '0', '0', '0', '0']] :=
  c9_deterministic
    ⟨["a"], 60, 540, 660, 1, ⟨false, false, true, true, 15, 9, 17⟩⟩
    ⟨["a"], 60, 540, 660, 1, ⟨false, false, true, true, 15, 9, 17⟩⟩
    [['0', '0', '0', '0', '0', '0', '0', '0']]
    [['0', '0', '0', '0', '0', '0', '0', '0']] rfl rfl

/-! ## Claim C10 -/

/-- C10: when an attendee's merged free/busy string is too short to cover
the whole slot, the per-interval check for that attendee is skipped
entirely and the slot counts as available for that attendee, whatever the
in-range characters are (they may all be Busy). -/
theorem c10_short_string_skipped (fb : List Char) (idx needed : Nat)
    (h : fb.length < idx + needed) :
    attendeeAvailable fb idx needed = true := by
  unfold attendeeAvailable
  split
  · rfl
  · rw [if_neg (by omega)]

/-- Witness for C10: a two-character all-Busy string is treated as
available for a slot needing intervals 1 and 2. -/
theorem c10_witness : attendeeAvailable ['2', '2'] 1 2 = true :=
  c10_short_string_skipped ['2', '2'] 1 2 (by decide)

/-! ## Claim C8 -/

theorem loop_all_busy (ctx : Ctx) (fb : List Char) (hmem : fb ∈ ctx.fbs)
    (hbusy : ∀ ch ∈ fb, ch = '2') (hd : 15 ≤ ctx.d)
    (hlen : ticksBetween ctx.S ctx.E ≤ fb.length) (fuel : Nat) :
    ∀ t count, ctx.S ≤ t → (loop ctx fuel t count).cands = [] := by
  induction fuel with
  | zero => intro t count ht; simp [loop]
  | succ fuel ih =>
    intro t count ht
    simp only [loop]
    split
    · next hc =>
      split
      · next hj =>
        simp only [tally]
        have h1 := lt_nextDayAt t ctx.p.earliest_hour
        exact ih _ _ (by omega)
      · next hj =>
        rcases hba : bodyAction ctx (adjustEarly ctx t) with h | h | h | h
        · simp only [hba]
        · simp only [hba, tally]
          have h1 := le_adjustEarly ctx t
          have h2 := lt_nextDayAt (adjustEarly ctx t) ctx.p.earliest_hour
          exact ih _ _ (by omega)
        · exfalso
          obtain ⟨hfit, -, hav⟩ := bodyAction_emit ctx _ hba
          have hS : ctx.S ≤ adjustEarly ctx t :=
            Nat.le_trans ht (le_adjustEarly ctx t)
          have htE : t < ctx.E := hc.1
          have hticks : 1 ≤ ticksBetween ctx.S ctx.E := by
            unfold ticksBetween; omega
          have hne : fb ≠ [] := by
            intro hnil
            rw [hnil] at hlen
            simp at hlen
            omega
          have hcov : intervalIndex ctx.S (adjustEarly ctx t) +
              intervalsNeeded ctx.d ≤ fb.length := by
            unfold intervalIndex intervalsNeeded
            unfold ticksBetween at hlen
            omega
          have hn1 : 0 < intervalsNeeded ctx.d := by
            unfold intervalsNeeded; omega
          have hfbav : attendeeAvailable fb (intervalIndex ctx.S (adjustEarly ctx t))
              (intervalsNeeded ctx.d) = true := by
            have h2 := List.all_eq_true.mp hav fb hmem
            simpa using h2
          have hblock := attendeeAvailable_spec fb _ _ 0 hfbav hne hcov hn1
          have hidx : intervalIndex ctx.S (adjustEarly ctx t) < fb.length := by omega
          have hmemc : statusAt fb (intervalIndex ctx.S (adjustEarly ctx t) + 0) ∈ fb := by
            unfold statusAt
            rw [List.getD_eq_getElem fb '4' (by omega)]
            exact List.getElem_mem _
          have hch := hbusy _ hmemc
          rw [hch] at hblock
          simp [blockedChar] at hblock
        · simp only [hba, tally]
          have h1 := le_adjustEarly ctx t
          exact ih _ _ (by omega)
    · simp

/-- C8: when some attendee is Busy for the whole range (string long enough
to cover it) and the request is otherwise valid, find_meeting_times
returns a success result carrying an empty suggestions list, and raises no
error. -/
theorem c8_all_busy_empty (req : Req) (fbs : List (List Char))
    (hatt : req.attendees ≠ []) (hrange : req.date_range_start < req.date_range_end)
    (hd : 15 ≤ req.duration_minutes)
    (fb : List Char) (hmem : fb ∈ fbs) (hbusy : ∀ ch ∈ fb, ch = '2')
    (hlen : ticksBetween req.date_range_start req.date_range_end ≤ fb.length) :
    findMeetingTimes req fbs = Except.ok [] := by
  unfold findMeetingTimes
  rw [if_neg hatt, if_neg (by omega)]
  have hmain := loop_all_busy (ctxOf req fbs) fb hmem hbusy hd hlen
    ((ctxOf req fbs).E - (ctxOf req fbs).S + 1) (ctxOf req fbs).S 0 (Nat.le_refl _)
  unfold runLoop
  rw [hmain]
  simp [sortD]

/-- Witness for C8: Scenario C of the specification, one fully Free and one
fully Busy attendee over 09:00-17:00, yields the empty list. -/
theorem c8_witness :
    findMeetingTimes ⟨["alice", "bob"], 60, 540, 1020, 5, ⟨false, false, true, true, 15, 9, 17⟩⟩
        [List.replicate 32 '0', List.replicate 32 '2'] = Except.ok [] :=
  c8_all_busy_empty
    ⟨["alice", "bob"], 60, 540, 1020, 5, ⟨false, false, true, true, 15, 9, 17⟩⟩
    [List.replicate 32 '0', List.replicate 32 '2']
    (by decide) (by decide) (by decide)
    (List.replicate 32 '2') (by decide) (by decide) (by decide)

/-! ## Claim C7 -/

theorem nextDayAt_mod15 (t h : Nat) : nextDayAt t h % 15 = 0 := by
  unfold nextDayAt dayStart; omega

theorem replHour_mod15 (t h : Nat) : replHour t h % 15 = 0 := by
  unfold replHour dayStart; omega

theorem adjustEarly_cases (ctx : Ctx) (t : Nat) :
    adjustEarly ctx t = t ∨ adjustEarly ctx t % 15 = 0 := by
  unfold adjustEarly
  split
  · exact Or.inr (replHour_mod15 t ctx.p.earliest_hour)
  · exact Or.inl rfl

/-- Any two sufficient fuels compute the same loop result, so the fuel in
runLoop is an artifact of the embedding, not of the source loop. -/
theorem loop_fuel_congr (ctx : Ctx) :
    ∀ f1 f2 t count, ctx.E ≤ t + f1 → ctx.E ≤ t + f2 →
      loop ctx f1 t count = loop ctx f2 t count := by
  intro f1
  induction f1 with
  | zero =>
    intro f2 t count h1 h2
    match f2 with
    | 0 => rfl
    | f2 + 1 =>
      simp only [loop]
      rw [if_neg (by omega)]
  | succ f1 ih =>
    intro f2 t count h1 h2
    match f2 with
    | 0 =>
      simp only [loop]
      rw [if_neg (by omega)]
    | f2 + 1 =>
      simp only [loop]
      by_cases hc : t < ctx.E ∧ count < ctx.maxS
      · rw [if_pos hc, if_pos hc]
        by_cases hj : lateJump ctx t
        · rw [if_pos hj, if_pos hj]
          have h3 := lt_nextDayAt t ctx.p.earliest_hour
          rw [ih f2 (nextDayAt t ctx.p.earliest_hour) count (by omega) (by omega)]
        · rw [if_neg hj, if_neg hj]
          have ha1 := le_adjustEarly ctx t
          have ha2 := lt_nextDayAt (adjustEarly ctx t) ctx.p.earliest_hour
          rcases hba : bodyAction ctx (adjustEarly ctx t) with h | h | h | h
          · simp only [hba]
          · simp only [hba]
            rw [ih f2 (nextDayAt (adjustEarly ctx t) ctx.p.earliest_hour) count
              (by omega) (by omega)]
          · simp only [hba]
            rw [ih f2 (adjustEarly ctx t + 15) (count + 1) (by omega) (by omega)]
          · simp only [hba]
            rw [ih f2 (adjustEarly ctx t + 15) count (by omega) (by omega)]
      · rw [if_neg hc, if_neg hc]

theorem loop_iters_aligned (ctx : Ctx) :
    ∀ fuel t count, t % 15 = 0 →
      (loop ctx fuel t count).iters ≤ (ctx.E - t + 14) / 15 := by
  intro fuel
  induction fuel with
  | zero => intro t count ha; simp [loop]
  | succ fuel ih =>
    intro t count ha
    simp only [loop]
    split
    · next hc =>
      obtain ⟨htE, -⟩ := hc
      split
      · next hj =>
        simp only [tally]
        have hx1 := nextDayAt_mod15 t ctx.p.earliest_hour
        have hx2 := lt_nextDayAt t ctx.p.earliest_hour
        have hb := ih (nextDayAt t ctx.p.earliest_hour) count hx1
        omega
      · next hj =>
        have hal : adjustEarly ctx t % 15 = 0 := by
          rcases adjustEarly_cases ctx t with h | h
          · omega
          · exact h
        have hule := le_adjustEarly ctx t
        rcases hba : bodyAction ctx (adjustEarly ctx t) with h | h | h | h
        · simp only [hba]
          omega
        · simp only [hba, tally]
          have hx1 := nextDayAt_mod15 (adjustEarly ctx t) ctx.p.earliest_hour
          have hx2 := lt_nextDayAt (adjustEarly ctx t) ctx.p.earliest_hour
          have hb := ih (nextDayAt (adjustEarly ctx t) ctx.p.earliest_hour) count hx1
          omega
        · simp only [hba]
          have hb := ih (adjustEarly ctx t + 15) (count + 1) (by omega)
          omega
        · simp only [hba, tally]
          have hb := ih (adjustEarly ctx t + 15) count (by omega)
          omega
    · simp

theorem loop_iters_le (ctx : Ctx) :
    ∀ fuel t count, (loop ctx fuel t count).iters ≤ (ctx.E - t + 14) / 15 + 1 := by
  intro fuel
  induction fuel with
  | zero => intro t count; simp [loop]
  | succ fuel ih =>
    intro t count
    simp only [loop]
    split
    · next hc =>
      obtain ⟨htE, -⟩ := hc
      split
      · next hj =>
        simp only [tally]
        have hx1 := nextDayAt_mod15 t ctx.p.earliest_hour
        have hx2 := lt_nextDayAt t ctx.p.earliest_hour
        have hb := loop_iters_aligned ctx fuel (nextDayAt t ctx.p.earliest_hour) count hx1
        omega
      · next hj =>
        have hule := le_adjustEarly ctx t
        rcases hba : bodyAction ctx (adjustEarly ctx t) with h | h | h | h
        · simp only [hba]
          omega
        · simp only [hba, tally]
          have hx1 := nextDayAt_mod15 (adjustEarly ctx t) ctx.p.earliest_hour
          have hx2 := lt_nextDayAt (adjustEarly ctx t) ctx.p.earliest_hour
          have hb := loop_iters_aligned ctx fuel
            (nextDayAt (adjustEarly ctx t) ctx.p.earliest_hour) count hx1
          omega
        · simp only [hba]
          rcases adjustEarly_cases ctx t with hcase | hcase
          · rw [hcase]
            have hb := ih (t + 15) (count + 1)
            omega
          · have hb := loop_iters_aligned ctx fuel (adjustEarly ctx t + 15) (count + 1)
              (by omega)
            omega
        · simp only [hba, tally]
          rcases adjustEarly_cases ctx t with hcase | hcase
          · rw [hcase]
            have hb := ih (t + 15) count
            omega
          · have hb := loop_iters_aligned ctx fuel (adjustEarly ctx t + 15) count
              (by omega)
            omega
    · simp

/-- C7 as stated is false: on the range 23:59-00:14 (one 15-minute tick)
with working hours 0-23, the first iteration jumps one minute to midnight
without consuming a full tick and the second breaks, so the loop body runs
twice while the range holds a single tick. -/
theorem c7_counterexample :
    (runLoop ⟨1439, 1454, 30, 5, ⟨false, false, true, true, 15, 0, 23⟩,
        [['0', '0']]⟩).iters = 2 ∧
      ticksBetween 1439 1454 = 1 :=
  ⟨rfl, rfl⟩

/-- C7 amended: every iteration either exits the loop or strictly advances
the current time, and the iteration count is bounded by the number of
15-minute ticks between rangeStart and rangeEnd plus one; the extra
iteration can only occur when rangeStart is not aligned to the 15-minute
grid, so enumeration terminates even when no candidate is ever accepted. -/
theorem c7_iteration_bound (ctx : Ctx) :
    (runLoop ctx).iters ≤ ticksBetween ctx.S ctx.E + 1 := by
  unfold runLoop ticksBetween
  exact loop_iters_le ctx _ _ _

end EwsSched
